import Mathlib

/-!
A shallow embedding of the calculator expression engine (`script.js`).

Conventions of the embedding:
* Strings are modelled as `List Char`; tokens are `List Char` values.
* JavaScript numbers are modelled as `Option ℚ`: `none` stands for the
  poison value NaN (and for `undefined` popped from an empty stack, which
  behaves identically through the arithmetic in this code: every operation
  on it produces NaN).  Infinity is unreachable in the modelled fragment
  because division by zero is intercepted and rationals do not overflow;
  double-precision rounding is not modelled.
* JavaScript builtins used by the code (`Number.parseFloat`, `String` on a
  finite number, `Math.round`, regular-expression matching of the fixed
  patterns appearing in the source) are modelled by explicit functions,
  each documented at its definition.
-/

/-- The `operators` set of the source: `new Set(['+', '-', '*', '/'])`. -/
def isOpChar (c : Char) : Bool := c == '+' || c == '-' || c == '*' || c == '/'

/-- The character class `/\d|\./` used by `tokenize`. -/
def isDigitOrDot (c : Char) : Bool := c.isDigit || c == '.'

/-- `/\d|\./.test(raw[i + 1])`: at the end of the string `raw[i+1]` is
`undefined` and the test is false. -/
def nextIsNumChar : List Char → Bool
  | [] => false
  | c :: _ => isDigitOrDot c

/-- The scanning loop of `tokenize`.  `prev` is `raw[i-1]` (`none` at the
first character), `numBuf` is `numberBuffer`, `tokens` the output so far. -/
def tokenizeGo (prev : Option Char) (numBuf : List Char)
    (tokens : List (List Char)) : List Char → List (List Char)
  | [] => if numBuf = [] then tokens else tokens ++ [numBuf]
  | c :: rest =>
    if isDigitOrDot c || (c == '-' && prev.elim true isOpChar && nextIsNumChar rest) then
      tokenizeGo (some c) (numBuf ++ [c]) tokens rest
    else if isOpChar c then
      tokenizeGo (some c) [] ((if numBuf = [] then tokens else tokens ++ [numBuf]) ++ [[c]]) rest
    else
      tokenizeGo (some c) numBuf tokens rest

/-- `tokenize(raw)` from the source. -/
def tokenize (raw : List Char) : List (List Char) := tokenizeGo none [] [] raw

/-- `operators.has(token)` on a whole token. -/
def isOpTok (t : List Char) : Bool :=
  t == ['+'] || t == ['-'] || t == ['*'] || t == ['/']

/-- The `precedence` table `{'+': 1, '-': 1, '*': 2, '/': 2}`. -/
def prec (t : List Char) : Nat :=
  if t == ['*'] || t == ['/'] then 2 else if t == ['+'] || t == ['-'] then 1 else 0

/-- The inner `while` loop of `toPostfix`: pop stack-top operators whose
precedence is ≥ `p`, appending them to `output`.  The stack head is its top. -/
def popGE (p : Nat) : List (List Char) → List (List Char) →
    List (List Char) × List (List Char)
  | [], output => (output, [])
  | s :: stack, output =>
    if prec s ≥ p then popGE p stack (output ++ [s]) else (output, s :: stack)

/-- The token loop of `toPostfix`; at the end all remaining stack operators
are popped to the output in LIFO order. -/
def toPostfixGo : List (List Char) → List (List Char) → List (List Char) →
    List (List Char)
  | [], output, stack => output ++ stack
  | t :: ts, output, stack =>
    if isOpTok t then
      toPostfixGo ts (popGE (prec t) stack output).1 (t :: (popGE (prec t) stack output).2)
    else
      toPostfixGo ts (output ++ [t]) stack

/-- `toPostfix(tokens)` from the source. -/
def toPostfix (tokens : List (List Char)) : List (List Char) :=
  toPostfixGo tokens [] []

/-- Value of a digit string, most significant digit first. -/
def digitsToNat (l : List Char) : Nat :=
  l.foldl (fun a c => 10 * a + (c.toNat - 48)) 0

/-!
Exact rational arithmetic.  The library operations on `ℚ` are
`@[irreducible]`, so the evaluator uses these computable equivalents,
each proved equal to the corresponding field operation.
-/

/-- Computable addition on `ℚ`. -/
def qAdd (a b : ℚ) : ℚ := mkRat (a.num * b.den + b.num * a.den) (a.den * b.den)

/-- Computable subtraction on `ℚ`. -/
def qSub (a b : ℚ) : ℚ := mkRat (a.num * b.den - b.num * a.den) (a.den * b.den)

/-- Computable multiplication on `ℚ`. -/
def qMul (a b : ℚ) : ℚ := mkRat (a.num * b.num) (a.den * b.den)

/-- Computable division on `ℚ`. -/
def qDiv (a b : ℚ) : ℚ := Rat.divInt (a.num * b.den) (a.den * b.num)

/-- Model of `Number.parseFloat` on the token alphabet (digits, `.`, sign):
optional sign, integer digits, optional `.` and fraction digits; anything
after that is ignored; `none` (NaN) when no digit was consumed.  The
exponent and whitespace forms of `parseFloat` cannot occur in tokens of
this program and are not modelled. -/
def parseFloatQ (s : List Char) : Option ℚ :=
  let negp := s.head? == some '-'
  let s1 := if negp || s.head? == some '+' then s.drop 1 else s
  let ip := s1.takeWhile Char.isDigit
  let r1 := s1.dropWhile Char.isDigit
  let fp := if r1.head? == some '.' then (r1.drop 1).takeWhile Char.isDigit else []
  if ip = [] && fp = [] then none
  else
    let mag : ℚ := mkRat (digitsToNat ip * 10 ^ fp.length + digitsToNat fp) (10 ^ fp.length)
    some (if negp then -mag else mag)

/-- One iteration of the `forEach` in `evalPostfix`.  The stack head is the
top (the JavaScript array end); `b` is popped first, then `a`.  Popping an
empty stack yields `undefined`, which every arithmetic case turns into NaN,
so it is collapsed to `none` as well. -/
def evalStep (stack : List (Option ℚ)) (t : List Char) : List (Option ℚ) :=
  if !isOpTok t then parseFloatQ t :: stack
  else
    let b := stack.headD none
    let a := (stack.drop 1).headD none
    let rest := stack.drop 2
    if a.isNone || b.isNone then none :: rest
    else
      let av := a.getD 0
      let bv := b.getD 0
      if t == ['+'] then some (qAdd av bv) :: rest
      else if t == ['-'] then some (qSub av bv) :: rest
      else if t == ['*'] then some (qMul av bv) :: rest
      else if bv == 0 then none :: rest
      else some (qDiv av bv) :: rest

/-- `evalPostfix(postfix)`: the final `return stack[0]` reads the BOTTOM of
the stack (JavaScript array index 0), `undefined` (collapsed to `none`) if
the stack ended empty. -/
def evalPostfix (pfTokens : List (List Char)) : Option ℚ :=
  ((pfTokens.foldl evalStep []).getLast?).getD none

/-- `evaluateExpression(raw)` from the source. -/
def evaluateExpression (raw : List Char) : Option ℚ :=
  let tokens := tokenize raw
  if tokens = [] then some 0 else evalPostfix (toPostfix tokens)

/-- Decimal digits of `n`, most significant first, fuel-driven. -/
def natToDecAux : Nat → Nat → List Char
  | 0, _ => []
  | fuel + 1, n =>
    if n = 0 then [] else natToDecAux fuel (n / 10) ++ [Char.ofNat (48 + n % 10)]

/-- Decimal representation of a natural number. -/
def natToDec (n : Nat) : List Char := if n = 0 then ['0'] else natToDecAux (n + 1) n

/-- Remove trailing `'0'` characters. -/
def stripTrailingZeros (l : List Char) : List Char :=
  (l.reverse.dropWhile (fun c => c == '0')).reverse

/-- Left-pad with `'0'` up to length `k`. -/
def padZeros (k : Nat) (l : List Char) : List Char :=
  List.replicate (k - l.length) '0' ++ l

/-- Model of JavaScript `String()` applied to the finite number `k / 10^e`
(`k` an integer): optional `-`, the integer digits, and the fraction digits
with trailing zeros removed, preceded by `.` when the fraction is nonzero.
The exponential notation JavaScript switches to for magnitudes outside
`[1e-7, 1e21)` is not modelled; it contains no adjacent operator characters
either, so no property proved below depends on that remote range. -/
def scaledToDecString (e : Nat) (k : ℤ) : List Char :=
  let a := k.natAbs
  let fracStr := stripTrailingZeros (padZeros e (natToDec (a % 10 ^ e)))
  (if k < 0 then ['-'] else []) ++ natToDec (a / 10 ^ e) ++
    (if fracStr = [] then [] else '.' :: fracStr)

/-- Number of factors `p` in `n` (fuel-driven). -/
def factorCountAux : Nat → Nat → Nat → Nat
  | 0, _, _ => 0
  | fuel + 1, p, n => if n % p = 0 && 1 < n then 1 + factorCountAux fuel p (n / p) else 0

/-- Smallest exponent `e` with `d ∣ 10^e`, for `d` a product of `2`s and `5`s
(the only denominators that reach `String()` in this program). -/
def tenExp (d : Nat) : Nat := max (factorCountAux d 2 d) (factorCountAux d 5 d)

/-- Model of JavaScript `String()` on an exact rational with terminating
decimal expansion. -/
def ratToDecString (q : ℚ) : List Char :=
  scaledToDecString (tenExp q.den) ((qMul q (mkRat (10 ^ tenExp q.den) 1)).num)

/-- The literal `'Error'`. -/
def errorStr : List Char := ['E', 'r', 'r', 'o', 'r']

/-- `⌊a⌋` computed by floor division of the (reduced, positive-denominator)
numerator by the denominator. -/
def qFloor (a : ℚ) : ℤ := a.num.fdiv a.den

/-- Model of `Math.round`: `⌊x + 1/2⌋` (JavaScript rounds halves toward
positive infinity). -/
def jsRound (x : ℚ) : ℤ := qFloor (qAdd x (mkRat 1 2))

/-- `toResultString(value)` from the source: non-finite values format as
`'Error'`; finite values are rounded by
`Math.round((value + Number.EPSILON) * 1e12) / 1e12` and stringified.
`Number.EPSILON` is `2^-52`.  (Both branches of the source's final
`Number.isInteger` conditional return `String(rounded)`, so that
conditional is a no-op.) -/
def toResultString : Option ℚ → List Char
  | none => errorStr
  | some v => scaledToDecString 12 (jsRound (qMul (qAdd v (mkRat 1 (2 ^ 52))) (mkRat (10 ^ 12) 1)))

/-!  The regular expression pattern `-?\d*\.?\d+` anchored with `$`, used by
the `percent` and `sign` commands, and the buffer manager.  -/

/-- Membership in the language `\d*\.?\d+` (anchored on both sides): after
the leading digits there is either nothing (and at least one digit), or a
`.` followed by one or more digits. -/
def digitsDotDigits (s : List Char) : Bool :=
  match s.dropWhile Char.isDigit with
  | [] => !s.isEmpty
  | c :: r2 => c == '.' && !r2.isEmpty && r2.all Char.isDigit

/-- Membership in the language `-?\d*\.?\d+` (anchored on both sides). -/
def matchesNumSeg (s : List Char) : Bool :=
  match s with
  | [] => false
  | c :: r => if c == '-' then digitsDotDigits r else digitsDotDigits (c :: r)

/-- Model of matching the pattern `-?\d*\.?\d+$`: the match anchored at the
end of the string starting as far left as possible, i.e. the longest suffix
in the language, scanning start positions left to right as a backtracking
regex engine does. -/
def trailingMatch : List Char → Option (List Char)
  | [] => none
  | c :: rest => if matchesNumSeg (c :: rest) then some (c :: rest) else trailingMatch rest

/-- The trailing numeric segment: `expression.split(/[+\-*/]/)` and take the
last piece, i.e. the characters after the last operator. -/
def lastSegment (e : List Char) : List Char :=
  (e.reverse.takeWhile (fun c => !isOpChar c)).reverse

/-- `operators.has(expression.at(-1))`; false on the empty buffer
(`at(-1)` is `undefined` there). -/
def endsInOp (e : List Char) : Bool := e.getLast?.elim false isOpChar

/-- `normalizeInput(newChar)` from the source, acting on the buffer. -/
def normalizeInput (e : List Char) (c : Char) : List Char :=
  if c.isDigit then e ++ [c]
  else if c == '.' then
    (if '.' ∈ lastSegment e then e
     else if lastSegment e = [] then e ++ ['0', '.'] else e ++ ['.'])
  else if isOpChar c then
    (if e = [] then (if c == '-' then ['-'] else [])
     else if endsInOp e then e.dropLast ++ [c]
     else e ++ [c])
  else e

/-- The `percent` action: replace the trailing numeric segment by
`String(Number.parseFloat(segment) / 100)`.  (The matched segment always
contains a digit, so its `parseFloat` never yields NaN; `getD 0` is a
formality.) -/
def applyPercent (e : List Char) : List Char :=
  if e.isEmpty || endsInOp e then e
  else
    match trailingMatch e with
    | none => e
    | some cur => e.take (e.length - cur.length) ++
        ratToDecString (qDiv ((parseFloatQ cur).getD 0) 100)

/-- The `sign` action: toggle a leading `-` on the trailing numeric segment,
or on the whole buffer when no segment matches. -/
def applySign (e : List Char) : List Char :=
  match trailingMatch e with
  | none => if e.head? == some '-' then e.drop 1 else '-' :: e
  | some cur =>
    let toggled := if cur.head? == some '-' then cur.drop 1 else '-' :: cur
    e.take (e.length - cur.length) ++ toggled

/-- A history entry `{ expression, result, id }`.  The `id` field
(`crypto.randomUUID()`) is an external source of fresh identifiers with no
bearing on any behaviour of the core and is not modelled. -/
structure HistEntry where
  expression : List Char
  result : List Char
deriving DecidableEq

/-- The module state: the `expression` buffer and the `history` list
(newest first). -/
structure CalcState where
  expression : List Char
  history : List HistEntry
deriving DecidableEq

/-- The `equals` action: no-op on an empty or operator-terminated buffer;
otherwise evaluate, and on a non-`'Error'` result prepend a history entry,
truncate the history to 20 and replace the buffer by the result string,
while an `'Error'` result resets the buffer and leaves history alone. -/
def handleEquals (s : CalcState) : CalcState :=
  if s.expression.isEmpty || endsInOp s.expression then s
  else
    let answer := toResultString (evaluateExpression s.expression)
    if answer != errorStr then
      ⟨answer, (⟨s.expression, answer⟩ :: s.history).take 20⟩
    else
      ⟨[], s.history⟩

/-- One user input: a character fed to `normalizeInput`, or one of the five
commands of `handleAction`. -/
inductive Input where
  | ich (c : Char)
  | clear
  | del
  | percent
  | sign
  | equals
deriving DecidableEq

/-- The transition function of the calculator: `clear` empties the buffer,
`delete` drops its last character, the rest are as defined above.  Only
`equals` ever touches the history. -/
def step (s : CalcState) : Input → CalcState
  | .ich c => ⟨normalizeInput s.expression c, s.history⟩
  | .clear => ⟨[], s.history⟩
  | .del => ⟨s.expression.dropLast, s.history⟩
  | .percent => ⟨applyPercent s.expression, s.history⟩
  | .sign => ⟨applySign s.expression, s.history⟩
  | .equals => handleEquals s

/-- The initial state: empty buffer, empty history. -/
def initState : CalcState := ⟨[], []⟩

/-- The state after a sequence of inputs from the initial state. -/
def run (is : List Input) : CalcState := is.foldl step initState

/-- The `equals` action succeeds (records history) exactly when the buffer
is non-empty, does not end in an operator, and the result formats to
something other than `'Error'`. -/
def equalsOk (s : CalcState) : Bool :=
  !(s.expression.isEmpty || endsInOp s.expression) &&
    toResultString (evaluateExpression s.expression) != errorStr

/-- Number of successful `equals` among `is` run from `s`. -/
def succCount (s : CalcState) : List Input → Nat
  | [] => 0
  | i :: is => (if i = Input.equals && equalsOk s then 1 else 0) + succCount (step s i) is

/-- No two adjacent characters are both operator characters. -/
def noAdjOps : List Char → Bool
  | c1 :: c2 :: rest => !(isOpChar c1 && isOpChar c2) && noAdjOps (c2 :: rest)
  | _ => true

/-- An adjacent pair taken from the last character of one piece and the
first of the next is not an operator-operator pair. -/
def pairOk : Option Char → Option Char → Bool
  | some a, some b => !(isOpChar a && isOpChar b)
  | _, _ => true

/-- The shape of every number token `tokenize` emits: an optional leading
`-` followed by a non-empty run of digits and `.` characters. -/
def isNumericTok (t : List Char) : Bool :=
  match t with
  | [] => false
  | c :: r => if c == '-' then !r.isEmpty && r.all isDigitOrDot
              else (c :: r).all isDigitOrDot

/-- No two adjacent tokens are both number (non-operator) tokens. -/
def noAdjNums : List (List Char) → Bool
  | t1 :: t2 :: rest => (isOpTok t1 || isOpTok t2) && noAdjNums (t2 :: rest)
  | _ => true

/-- The token list ends in an operator token, or is empty. -/
def endsOpOrEmpty (ts : List (List Char)) : Bool := ts.getLast?.elim true isOpTok

/-- The buffers on which a double `sign` provably restores the original:
either the trailing numeric segment exists and does not already start with
`-`, or no segment matches and the buffer does not start with `--`. -/
def signSafe (e : List Char) : Bool :=
  match trailingMatch e with
  | some cur => !(cur.head? == some '-')
  | none => !((e.head? == some '-') && ((e.drop 1).head? == some '-'))

theorem qAdd_eq_add (a b : ℚ) : qAdd a b = a + b := (Rat.add_def' a b).symm

theorem qSub_eq_sub (a b : ℚ) : qSub a b = a - b := (Rat.sub_def' a b).symm

theorem qMul_eq_mul (a b : ℚ) : qMul a b = a * b := by
  rw [qMul, Rat.mul_def, Rat.normalize_eq_mkRat]

theorem qDiv_eq_div (a b : ℚ) : qDiv a b = a / b := (Rat.div_def' a b).symm

example : evaluateExpression ['2', '+', '3', '*', '4'] = some 14 := by decide
example : evaluateExpression ['-', '5', '+', '2'] = some (-3) := by decide
example : evaluateExpression ['1', '0', '/', '0'] = none := by decide
example : evaluateExpression [] = some 0 := by decide
example : toPostfix (tokenize ['2', '+', '3', '*', '4']) =
    [['2'], ['3'], ['4'], ['*'], ['+']] := by decide
example : toResultString (some 14) = ['1', '4'] := by decide
example : toResultString (evaluateExpression ['1', '0', '/', '0']) = errorStr := by decide
example : applyPercent ['5', '0'] = ['0', '.', '5'] := by decide
example : applySign ['5', '-', '3'] = ['5', '3'] := by decide
example : applySign ['5', '3'] = ['-', '5', '3'] := by decide
example : (run [.ich '5', .ich '+', .ich '3', .sign]).expression =
    ['5', '+', '-', '3'] := by decide
example : noAdjOps ['5', '+', '-', '3'] = false := by decide
example : (run [.ich '5', .ich '+']).expression = ['5', '+'] := by decide
example : normalizeInput ['5', '+'] '*' = ['5', '*'] := by decide
example : toResultString (some (mkRat 1 2)) = ['0', '.', '5'] := by decide
example : handleEquals ⟨['1', '+', '1'], []⟩ =
    ⟨['2'], [⟨['1', '+', '1'], ['2']⟩]⟩ := by decide

/-!  Length preservation of the shunting-yard conversion.  -/

theorem popGE_len (stack : List (List Char)) : ∀ (p : Nat) (output : List (List Char)),
    (popGE p stack output).1.length + (popGE p stack output).2.length
      = output.length + stack.length := by
  induction stack with
  | nil => intro p output; simp [popGE]
  | cons s st ih =>
    intro p output
    simp only [popGE]
    split
    · rw [ih]; simp; omega
    · simp

theorem toPostfixGo_len (ts : List (List Char)) :
    ∀ (output stack : List (List Char)),
    (toPostfixGo ts output stack).length = ts.length + output.length + stack.length := by
  induction ts with
  | nil => intro output stack; simp [toPostfixGo]
  | cons t ts ih =>
    intro output stack
    simp only [toPostfixGo]
    split
    · rw [ih]
      have h := popGE_len stack (prec t) output
      simp only [List.length_cons]
      omega
    · rw [ih]; simp; omega

/-- Characterization of the pop loop of `toPostfix`: it moves to the output
exactly the maximal run of stack-top operators whose precedence is greater
than or equal to the incoming precedence, leaving the rest. -/
theorem popGE_spec (stack : List (List Char)) : ∀ (p : Nat) (output : List (List Char)),
    popGE p stack output =
      (output ++ stack.takeWhile (fun s => decide (p ≤ prec s)),
       stack.dropWhile (fun s => decide (p ≤ prec s))) := by
  induction stack with
  | nil => intro p output; simp [popGE]
  | cons s st ih =>
    intro p output
    by_cases h : p ≤ prec s
    · simp [popGE, List.takeWhile_cons, List.dropWhile_cons, h, ih]
    · simp [popGE, List.takeWhile_cons, List.dropWhile_cons, h, ih]

/-!  Claim theorems.  -/

/-- C1: Operator precedence is respected end to end: `evaluateExpression`
on `2+3*4` returns 14, the postfix form places `*` before `+`, and the
conversion pops exactly the stack-top operators of greater-or-equal
precedence (equal precedence pops, giving left associativity) before
pushing an incoming operator. -/
theorem precedence_respected_end_to_end :
    evaluateExpression ['2', '+', '3', '*', '4'] = some 14
    ∧ toPostfix (tokenize ['2', '+', '3', '*', '4']) = [['2'], ['3'], ['4'], ['*'], ['+']]
    ∧ (∀ (t : List Char) (stack output : List (List Char)),
        popGE (prec t) stack output =
          (output ++ stack.takeWhile (fun s => decide (prec t ≤ prec s)),
           stack.dropWhile (fun s => decide (prec t ≤ prec s)))) :=
  ⟨by decide, by decide, fun t stack output => popGE_spec stack (prec t) output⟩

/-- C3: Division by zero is an error, not infinity: with right operand `0`
on the stack top, the `/` step pushes the poison value (`none`, NaN) for
every left operand, `evaluateExpression` on `10/0` is non-finite, and it
formats to the string `Error`. -/
theorem division_by_zero_yields_nan :
    (∀ (a : Option ℚ) (rest : List (Option ℚ)),
        evalStep (some 0 :: a :: rest) ['/'] = none :: rest)
    ∧ evaluateExpression ['1', '0', '/', '0'] = none
    ∧ toResultString (evaluateExpression ['1', '0', '/', '0']) = errorStr :=
  ⟨fun a _rest => by cases a <;> rfl, by decide, by decide⟩

/-- C4: The tokenizer treats `-` as part of a number (unary sign) exactly
when it is at the first position (`prev` is `none`) or immediately follows
an operator character, and the next character is a digit or `.`; in every
other position `-` is emitted as a binary operator token (flushing the
pending number first).  In particular `-5+2` evaluates to `-3`. -/
theorem tokenize_unary_minus_rule :
    (∀ (prev : Option Char) (numBuf : List Char) (tokens : List (List Char)) (rest : List Char),
      tokenizeGo prev numBuf tokens ('-' :: rest) =
        if (prev.isNone || prev.elim false isOpChar) && nextIsNumChar rest then
          tokenizeGo (some '-') (numBuf ++ ['-']) tokens rest
        else
          tokenizeGo (some '-') []
            ((if numBuf = [] then tokens else tokens ++ [numBuf]) ++ [['-']]) rest)
    ∧ evaluateExpression ['-', '5', '+', '2'] = some (-3) := by
  refine ⟨fun prev numBuf tokens rest => ?_, by decide⟩
  cases prev with
  | none => by_cases h : nextIsNumChar rest <;> simp +decide [tokenizeGo, h]
  | some p =>
    by_cases hp : isOpChar p <;> by_cases h : nextIsNumChar rest <;>
      simp +decide [tokenizeGo, h, hp]

/-- C5: `toPostfix` preserves the token count: its output has the same
length as its input, for every token sequence. -/
theorem toPostfix_length_preserved (tokens : List (List Char)) :
    (toPostfix tokens).length = tokens.length := by
  simp [toPostfix, toPostfixGo_len]

/-- C6: On `equals` with a non-empty buffer not ending in an operator, an
`Error` (non-finite) result resets the buffer to empty and leaves the
history untouched; otherwise the buffer becomes the result string and an
entry is recorded at the front (history truncated to 20). -/
theorem equals_error_resets_buffer (s : CalcState)
    (h1 : s.expression ≠ []) (h2 : endsInOp s.expression = false) :
    (toResultString (evaluateExpression s.expression) = errorStr →
      handleEquals s = ⟨[], s.history⟩)
    ∧ (toResultString (evaluateExpression s.expression) ≠ errorStr →
      handleEquals s = ⟨toResultString (evaluateExpression s.expression),
        (⟨s.expression, toResultString (evaluateExpression s.expression)⟩ :: s.history).take 20⟩) := by
  constructor
  · intro he
    simp [handleEquals, h1, h2, he]
  · intro hn
    simp [handleEquals, h1, h2, hn]

theorem equals_error_resets_buffer_witness :
    toResultString (evaluateExpression ['1', '0', '/', '0']) = errorStr
    ∧ handleEquals ⟨['1', '0', '/', '0'], [⟨['1'], ['1']⟩]⟩ = ⟨[], [⟨['1'], ['1']⟩]⟩ :=
  ⟨by decide,
   (equals_error_resets_buffer ⟨['1', '0', '/', '0'], [⟨['1'], ['1']⟩]⟩
      (by decide) (by decide)).1 (by decide)⟩

/-- C8: After a successful `equals`, the newest history entry's
`expression` field is exactly the pre-evaluation buffer string. -/
theorem equals_history_expression_roundtrip (s : CalcState)
    (h1 : s.expression ≠ []) (h2 : endsInOp s.expression = false)
    (h3 : toResultString (evaluateExpression s.expression) ≠ errorStr) :
    ((handleEquals s).history.head?).map HistEntry.expression = some s.expression := by
  simp only [handleEquals, h2]
  rw [if_neg, if_pos]
  · rw [show (20 : Nat) = 19 + 1 from rfl, List.take_succ_cons]
    rfl
  · simp [h3]
  · simp [h1, h2]

theorem equals_history_expression_roundtrip_witness :
    ((handleEquals ⟨['1', '+', '1'], []⟩).history.head?).map HistEntry.expression =
      some ['1', '+', '1'] :=
  equals_history_expression_roundtrip ⟨['1', '+', '1'], []⟩
    (by decide) (by decide) (by decide)

/-!  History length accounting.  -/

theorem step_hist_of_ne (s : CalcState) (i : Input) (hi : i ≠ Input.equals) :
    (step s i).history = s.history := by
  cases i with
  | ich c => rfl
  | clear => rfl
  | del => rfl
  | percent => rfl
  | sign => rfl
  | equals => exact absurd rfl hi

theorem handleEquals_hist_of_fail (s : CalcState) (h : equalsOk s = false) :
    (handleEquals s).history = s.history := by
  unfold equalsOk at h
  unfold handleEquals
  by_cases hg : (s.expression.isEmpty || endsInOp s.expression) = true
  · simp [hg]
  · simp only [Bool.not_eq_true] at hg
    simp only [hg, Bool.not_false, Bool.true_and] at h
    simp [hg, h]

theorem handleEquals_hist_of_ok (s : CalcState) (h : equalsOk s = true) :
    (handleEquals s).history =
      (⟨s.expression, toResultString (evaluateExpression s.expression)⟩ ::
        s.history).take 20 := by
  unfold equalsOk at h
  rw [Bool.and_eq_true] at h
  obtain ⟨hg, hb⟩ := h
  rw [Bool.not_eq_true'] at hg
  unfold handleEquals
  simp [hg, hb]

theorem run_hist_len (is : List Input) : ∀ (s : CalcState), s.history.length ≤ 20 →
    (is.foldl step s).history.length = min (s.history.length + succCount s is) 20 := by
  induction is with
  | nil => intro s h; simp [succCount]; omega
  | cons i is ih =>
    intro s h
    simp only [List.foldl_cons, succCount]
    by_cases he : i = Input.equals ∧ equalsOk s = true
    · obtain ⟨rfl, hok⟩ := he
      have hh : (step s Input.equals).history.length = min (s.history.length + 1) 20 := by
        have := handleEquals_hist_of_ok s hok
        simp only [step, this, List.length_take, List.length_cons]
        omega
      rw [ih _ (by omega), hh]
      simp [hok]
      omega
    · have hh : (step s i).history = s.history := by
        by_cases hi : i = Input.equals
        · subst hi
          have hko : equalsOk s = false := by
            rcases Bool.eq_false_or_eq_true (equalsOk s) with h1 | h0
            · exact absurd ⟨rfl, h1⟩ he
            · exact h0
          exact handleEquals_hist_of_fail s hko
        · exact step_hist_of_ne s i hi
      have hif : (if i = Input.equals && equalsOk s then 1 else 0) = 0 := by
        by_cases hi : i = Input.equals
        · subst hi
          have hko : equalsOk s = false := by
            rcases Bool.eq_false_or_eq_true (equalsOk s) with h1 | h0
            · exact absurd ⟨rfl, h1⟩ he
            · exact h0
          simp [hko]
        · simp [hi]
      rw [ih _ (by rw [hh]; exact h), hh, hif]
      omega

/-- C7: History is bounded and newest-first: the history never exceeds 20
entries on any reachable state; after more than 20 successful `equals`
commands it has exactly 20 entries; and a successful `equals` places the
entry for the current buffer at index 0. -/
theorem history_bounded_and_newest_first (is : List Input) :
    (run is).history.length ≤ 20
    ∧ (20 < succCount initState is → (run is).history.length = 20)
    ∧ (equalsOk (run is) = true →
        (step (run is) Input.equals).history.head? =
          some ⟨(run is).expression,
            toResultString (evaluateExpression (run is).expression)⟩) := by
  have h := run_hist_len is initState (by simp [initState])
  rw [run]
  refine ⟨by rw [h]; omega, fun hn => ?_, fun hok => ?_⟩
  · rw [h]
    have h0 : initState.history.length = 0 := rfl
    rw [h0] at *
    omega
  have hh := handleEquals_hist_of_ok _ hok
  show (step (List.foldl step initState is) Input.equals).history.head? = _
  simp only [step, hh]
  rw [show (20 : Nat) = 19 + 1 from rfl, List.take_succ_cons]
  rfl

theorem history_bounded_and_newest_first_witness :
    (run (Input.ich '1' :: List.replicate 21 Input.equals)).history.length = 20
    ∧ (step (run (Input.ich '1' :: List.replicate 21 Input.equals))
        Input.equals).history.head? =
        some ⟨(run (Input.ich '1' :: List.replicate 21 Input.equals)).expression,
          toResultString (evaluateExpression
            (run (Input.ich '1' :: List.replicate 21 Input.equals)).expression)⟩ := by
  have h := history_bounded_and_newest_first (Input.ich '1' :: List.replicate 21 Input.equals)
  exact ⟨h.2.1 (by decide), h.2.2 (by decide)⟩

/-!  Shape of the tokens produced by `tokenize`.  -/

theorem isOpChar_cases (c : Char) (h : isOpChar c = true) :
    c = '+' ∨ c = '-' ∨ c = '*' ∨ c = '/' := by
  simp only [isOpChar, Bool.or_eq_true, beq_iff_eq] at h
  rcases h with ((h | h) | h) | h
  · exact Or.inl h
  · exact Or.inr (Or.inl h)
  · exact Or.inr (Or.inr (Or.inl h))
  · exact Or.inr (Or.inr (Or.inr h))

theorem isOpChar_false_of_digitOrDot (c : Char) (h : isDigitOrDot c = true) :
    isOpChar c = false := by
  have h2 : c.isDigit = true ∨ c = '.' := by simpa [isDigitOrDot] using h
  by_contra hop
  rw [Bool.not_eq_false] at hop
  rcases isOpChar_cases c hop with rfl | rfl | rfl | rfl <;>
    rcases h2 with hd | he <;> first
      | exact absurd hd (by decide)
      | exact absurd he (by decide)

theorem isOpTok_singleton (c : Char) (h : isOpChar c = true) : isOpTok [c] = true := by
  rcases isOpChar_cases c h with rfl | rfl | rfl | rfl <;> decide

theorem isNumericTok_singleton (c : Char) (h : isDigitOrDot c = true) :
    isNumericTok [c] = true := by
  have hc : (c == '-') = false := by
    rw [beq_eq_false_iff_ne]
    rintro rfl
    exact absurd h (by decide)
  simp [isNumericTok, hc, h]

theorem isNumericTok_append_digitOrDot (t : List Char) (c : Char)
    (ht : isNumericTok t = true) (hc : isDigitOrDot c = true) :
    isNumericTok (t ++ [c]) = true := by
  cases t with
  | nil => exact absurd ht (by decide)
  | cons b r =>
    by_cases hb : (b == '-') = true
    · simp only [isNumericTok, hb, if_true] at ht
      simp only [List.cons_append, isNumericTok, hb, if_true]
      rw [Bool.and_eq_true] at ht
      obtain ⟨h9, hall⟩ := ht
      simp only [List.all_eq_true] at hall
      simp [List.all_append, hc]
      exact hall
    · rw [Bool.not_eq_true] at hb
      simp [isNumericTok, hb] at ht
      simp [List.cons_append, isNumericTok, hb, List.all_append, ht.1, hc]
      exact ht.2

theorem endsOpOrEmpty_concat (ts : List (List Char)) (t : List Char) :
    endsOpOrEmpty (ts ++ [t]) = isOpTok t := by
  simp [endsOpOrEmpty, List.getLast?_concat]

theorem noAdjNums_push (t : List Char) : ∀ (ts : List (List Char)),
    noAdjNums ts = true → (endsOpOrEmpty ts = true ∨ isOpTok t = true) →
    noAdjNums (ts ++ [t]) = true := by
  intro ts
  induction ts with
  | nil => intro _ _; rfl
  | cons a ts ih =>
    intro h1 h2
    cases ts with
    | nil =>
      have ha : isOpTok a = true ∨ isOpTok t = true := by
        rcases h2 with h | h
        · left; simpa [endsOpOrEmpty] using h
        · right; exact h
      rcases ha with h | h <;> simp [noAdjNums, h]
    | cons b ts2 =>
      simp only [noAdjNums, Bool.and_eq_true] at h1
      have h2' : endsOpOrEmpty (b :: ts2) = true ∨ isOpTok t = true := by
        rcases h2 with h | h
        · left; simpa [endsOpOrEmpty, List.getLast?_cons_cons] using h
        · right; exact h
      have := ih h1.2 h2'
      simp only [List.cons_append, noAdjNums, Bool.and_eq_true]
      exact ⟨h1.1, by simpa [List.cons_append] using this⟩

theorem tokenizeGo_shape (cs : List Char) :
    ∀ (prev : Option Char) (numBuf : List Char) (tokens : List (List Char)),
    tokens.all (fun t => isOpTok t || isNumericTok t) = true →
    noAdjNums tokens = true →
    endsOpOrEmpty tokens = true →
    (numBuf = [] ∨ isNumericTok numBuf = true ∨
      (numBuf = ['-'] ∧ nextIsNumChar cs = true)) →
    (prev.elim true isOpChar = true → numBuf = [] ∨ numBuf = ['-']) →
    (tokenizeGo prev numBuf tokens cs).all (fun t => isOpTok t || isNumericTok t) = true
      ∧ noAdjNums (tokenizeGo prev numBuf tokens cs) = true := by
  induction cs with
  | nil =>
    intro prev numBuf tokens h1 h2 h3 h4 h5
    simp only [tokenizeGo]
    by_cases hnb : numBuf = []
    · rw [if_pos hnb]; exact ⟨h1, h2⟩
    · rw [if_neg hnb]
      have hnum : isNumericTok numBuf = true := by
        rcases h4 with h | h | ⟨h, hx⟩
        · exact absurd h hnb
        · exact h
        · exact absurd hx (by decide)
      refine ⟨?_, noAdjNums_push numBuf tokens h2 (Or.inl h3)⟩
      simp only [List.all_append, Bool.and_eq_true]
      refine ⟨h1, by simp [hnum]⟩
  | cons c rest ih =>
    intro prev numBuf tokens h1 h2 h3 h4 h5
    simp only [tokenizeGo]
    by_cases hdd : isDigitOrDot c = true
    · rw [if_pos (by simp [hdd])]
      apply ih (some c) (numBuf ++ [c]) tokens h1 h2 h3
      · rcases h4 with rfl | h | ⟨rfl, hx⟩
        · right; left; simpa using isNumericTok_singleton c hdd
        · right; left; exact isNumericTok_append_digitOrDot numBuf c h hdd
        · right; left
          show isNumericTok (['-'] ++ [c]) = true
          simp [isNumericTok, hdd]
      · intro hcop
        simp only [Option.elim_some] at hcop
        rw [isOpChar_false_of_digitOrDot c hdd] at hcop
        exact absurd hcop Bool.false_ne_true
    · by_cases hun : (c == '-' && prev.elim true isOpChar && nextIsNumChar rest) = true
      · rw [if_pos (by simp [hun])]
        have hparts := hun
        rw [Bool.and_eq_true, Bool.and_eq_true] at hparts
        obtain ⟨⟨hc, hprev⟩, hnext⟩ := hparts
        have hceq : c = '-' := by simpa using hc
        have hnb : numBuf = [] := by
          rcases h5 hprev with h | h
          · exact h
          · exfalso
            subst h
            rcases h4 with h0 | h0 | ⟨h0, hx⟩
            · exact absurd h0 (by simp)
            · exact absurd h0 (by decide)
            · revert hx
              simp [nextIsNumChar, hdd]
        subst hnb
        subst hceq
        apply ih (some '-') ([] ++ ['-']) tokens h1 h2 h3
        · right; right
          exact ⟨rfl, hnext⟩
        · intro _
          right; rfl
      · rw [if_neg (by simp [hdd, hun])]
        by_cases hop : isOpChar c = true
        · rw [if_pos hop]
          have hoptok : isOpTok [c] = true := isOpTok_singleton c hop
          by_cases hnb : numBuf = []
          · rw [if_pos hnb]
            apply ih (some c) [] (tokens ++ [[c]])
            · simp only [List.all_append, Bool.and_eq_true]
              refine ⟨h1, by simp [hoptok]⟩
            · exact noAdjNums_push [c] tokens h2 (Or.inr hoptok)
            · rw [endsOpOrEmpty_concat]; exact hoptok
            · exact Or.inl rfl
            · intro _; exact Or.inl rfl
          · rw [if_neg hnb]
            have hnum : isNumericTok numBuf = true := by
              rcases h4 with h | h | ⟨h, hx⟩
              · exact absurd h hnb
              · exact h
              · revert hx
                simp [nextIsNumChar, hdd]
            apply ih (some c) [] ((tokens ++ [numBuf]) ++ [[c]])
            · simp only [List.all_append, Bool.and_eq_true]
              exact ⟨⟨h1, by simp [hnum]⟩, by simp [hoptok]⟩
            · exact noAdjNums_push [c] (tokens ++ [numBuf])
                (noAdjNums_push numBuf tokens h2 (Or.inl h3)) (Or.inr hoptok)
            · rw [endsOpOrEmpty_concat]; exact hoptok
            · exact Or.inl rfl
            · intro _; exact Or.inl rfl
        · rw [if_neg hop]
          apply ih (some c) numBuf tokens h1 h2 h3
          · rcases h4 with h | h | ⟨h, hx⟩
            · exact Or.inl h
            · exact Or.inr (Or.inl h)
            · exfalso
              revert hx
              simp [nextIsNumChar, hdd]
          · intro hcop
            simp only [Option.elim_some] at hcop
            exact absurd hcop hop

/-- C10: Every token `tokenize` produces is either one of the four operator
strings or a non-empty numeric string (an optional leading `-` followed by
a non-empty run of digits and `.` characters), and no two number tokens are
ever adjacent in the output. -/
theorem tokenize_token_shapes (raw : List Char) :
    (tokenize raw).all (fun t => isOpTok t || isNumericTok t) = true
    ∧ noAdjNums (tokenize raw) = true :=
  tokenizeGo_shape raw none [] [] rfl rfl rfl (Or.inl rfl) (fun _ => Or.inl rfl)

/-!  Structure of the no-adjacent-operators predicate.  -/

theorem pairOk_none_right (x : Option Char) : pairOk x none = true := by
  cases x <;> rfl

theorem pairOk_right_nonop (x : Option Char) (c : Char) (hc : isOpChar c = false) :
    pairOk x (some c) = true := by
  cases x with
  | none => rfl
  | some a => simp [pairOk, hc]

theorem pairOk_left_nonop (a : Char) (y : Option Char) (ha : isOpChar a = false) :
    pairOk (some a) y = true := by
  cases y with
  | none => rfl
  | some b => simp [pairOk, ha]

theorem pairOk_swap_right (x : Option Char) (b c : Char)
    (h : pairOk x (some b) = true) (hb : isOpChar b = true) :
    pairOk x (some c) = true := by
  cases x with
  | none => rfl
  | some a =>
    simp only [pairOk, hb, Bool.and_true, Bool.not_eq_true'] at h
    simp [pairOk, h]

theorem noAdjOps_append_iff (q : List Char) : ∀ (p : List Char),
    noAdjOps (p ++ q) = true ↔
      (noAdjOps p = true ∧ noAdjOps q = true ∧ pairOk p.getLast? q.head? = true) := by
  intro p
  induction p with
  | nil => simp [noAdjOps, pairOk]
  | cons a p ih =>
    cases p with
    | nil =>
      cases q with
      | nil => simp [noAdjOps, pairOk_none_right]
      | cons b q2 =>
        simp only [List.singleton_append, noAdjOps, List.getLast?_singleton,
          List.head?_cons, Bool.and_eq_true, pairOk]
        constructor
        · rintro ⟨hab, hq⟩; exact ⟨trivial, hq, hab⟩
        · rintro ⟨_, hq, hab⟩; exact ⟨hab, hq⟩
    | cons b p2 =>
      simp only [List.cons_append, noAdjOps, Bool.and_eq_true] at *
      constructor
      · rintro ⟨hab, hrest⟩
        have := ih.mp (by simpa using hrest)
        exact ⟨⟨hab, this.1⟩, this.2.1, by simpa [List.getLast?_cons_cons] using this.2.2⟩
      · rintro ⟨⟨hab, hp⟩, hq, hpair⟩
        refine ⟨hab, ?_⟩
        have := ih.mpr ⟨hp, hq, by simpa [List.getLast?_cons_cons] using hpair⟩
        simpa using this

theorem noAdjOps_singleton (c : Char) : noAdjOps [c] = true := rfl

theorem noAdjOps_of_all_nonop (l : List Char)
    (h : ∀ c ∈ l, isOpChar c = false) : noAdjOps l = true := by
  induction l with
  | nil => rfl
  | cons a l ih =>
    cases l with
    | nil => rfl
    | cons b l2 =>
      simp only [noAdjOps, Bool.and_eq_true]
      refine ⟨?_, ih (fun c hc => h c (List.mem_cons_of_mem a hc))⟩
      simp [h a (List.mem_cons_self a _)]

theorem noAdjOps_dropLast (l : List Char) (h : noAdjOps l = true) :
    noAdjOps l.dropLast = true := by
  cases hl : l.getLast? with
  | none =>
    rw [List.getLast?_eq_none_iff] at hl
    subst hl; exact h
  | some a =>
    have := List.dropLast_append_getLast? a hl
    rw [← this] at h
    exact ((noAdjOps_append_iff [a] l.dropLast).mp h).1

theorem noAdjOps_append_single (l : List Char) (c : Char)
    (h : noAdjOps l = true) (hp : pairOk l.getLast? (some c) = true) :
    noAdjOps (l ++ [c]) = true :=
  (noAdjOps_append_iff [c] l).mpr ⟨h, rfl, hp⟩

/-!  Character shape of the decimal strings produced by the `String()`
model.  -/

theorem digitChar_isDigit (r : Nat) (h : r < 10) :
    (Char.ofNat (48 + r)).isDigit = true := by
  interval_cases r <;> decide

theorem isOpChar_false_of_isDigit (c : Char) (h : c.isDigit = true) :
    isOpChar c = false :=
  isOpChar_false_of_digitOrDot c (by simp [isDigitOrDot, h])

theorem natToDecAux_digits (fuel : Nat) : ∀ (n : Nat) (c : Char),
    c ∈ natToDecAux fuel n → c.isDigit = true := by
  induction fuel with
  | zero => intro n c hc; simp [natToDecAux] at hc
  | succ fuel ih =>
    intro n c hc
    by_cases hn : n = 0
    · simp [natToDecAux, hn] at hc
    · rw [natToDecAux, if_neg hn] at hc
      rcases List.mem_append.mp hc with h | h
      · exact ih (n / 10) c h
      · rw [List.mem_singleton] at h
        subst h
        exact digitChar_isDigit (n % 10) (Nat.mod_lt n (by decide))

theorem natToDec_digits (n : Nat) (c : Char) (hc : c ∈ natToDec n) :
    c.isDigit = true := by
  by_cases hn : n = 0
  · rw [natToDec, if_pos hn, List.mem_singleton] at hc
    subst hc; decide
  · rw [natToDec, if_neg hn] at hc
    exact natToDecAux_digits (n + 1) n c hc

theorem natToDec_ne_nil (n : Nat) : natToDec n ≠ [] := by
  by_cases hn : n = 0
  · simp [natToDec, hn]
  · rw [natToDec, if_neg hn, natToDecAux, if_neg hn]
    simp

theorem stripTrailingZeros_mem (l : List Char) (c : Char)
    (hc : c ∈ stripTrailingZeros l) : c ∈ l := by
  rw [stripTrailingZeros, List.mem_reverse] at hc
  rw [← List.mem_reverse]
  exact List.Sublist.mem hc (List.dropWhile_sublist _)

theorem padZeros_digits (k : Nat) (l : List Char)
    (h : ∀ c ∈ l, c.isDigit = true) : ∀ c ∈ padZeros k l, c.isDigit = true := by
  intro c hc
  rcases List.mem_append.mp hc with h2 | h2
  · rw [List.eq_of_mem_replicate h2]; decide
  · exact h c h2

theorem scaled_body_nonop (e : Nat) (k : ℤ) : ∀ c ∈
    natToDec (k.natAbs / 10 ^ e) ++
      (if stripTrailingZeros (padZeros e (natToDec (k.natAbs % 10 ^ e))) = [] then []
       else '.' :: stripTrailingZeros (padZeros e (natToDec (k.natAbs % 10 ^ e)))),
    isOpChar c = false := by
  intro c hc
  rcases List.mem_append.mp hc with h2 | h2
  · exact isOpChar_false_of_isDigit c (natToDec_digits _ c h2)
  · split at h2
    · simp at h2
    · rcases List.mem_cons.mp h2 with rfl | h3
      · decide
      · exact isOpChar_false_of_isDigit c
          (padZeros_digits e _ (natToDec_digits _) c (stripTrailingZeros_mem _ c h3))

theorem scaled_decomp (e : Nat) (k : ℤ) :
    scaledToDecString e k = (if k < 0 then ['-'] else []) ++
      (natToDec (k.natAbs / 10 ^ e) ++
        (if stripTrailingZeros (padZeros e (natToDec (k.natAbs % 10 ^ e))) = [] then []
         else '.' :: stripTrailingZeros (padZeros e (natToDec (k.natAbs % 10 ^ e))))) := by
  rw [scaledToDecString, List.append_assoc]

theorem noAdjOps_scaledToDecString (e : Nat) (k : ℤ) :
    noAdjOps (scaledToDecString e k) = true := by
  rw [scaled_decomp]
  have hbody := noAdjOps_of_all_nonop _ (scaled_body_nonop e k)
  by_cases hk : k < 0
  · rw [if_pos hk]
    rw [noAdjOps_append_iff]
    refine ⟨rfl, hbody, ?_⟩
    cases hnd : natToDec (k.natAbs / 10 ^ e) with
    | nil => exact absurd hnd (natToDec_ne_nil _)
    | cons d ds =>
      have hd : d.isDigit = true := natToDec_digits _ d (by rw [hnd]; exact List.mem_cons_self d ds)
      simp only [List.getLast?_singleton, hnd, List.cons_append, List.head?_cons]
      exact pairOk_right_nonop _ d (isOpChar_false_of_isDigit d hd)
  · rw [if_neg hk, List.nil_append]
    exact hbody

/-!  The trailing-segment match: basic facts.  -/

theorem trailingMatch_suffix (e : List Char) : ∀ (cur : List Char),
    trailingMatch e = some cur → ∃ p, e = p ++ cur := by
  induction e with
  | nil => intro cur h; simp [trailingMatch] at h
  | cons c rest ih =>
    intro cur h
    rw [trailingMatch] at h
    split at h
    · exact ⟨[], by simpa using (Option.some.inj h)⟩
    · obtain ⟨p, hp⟩ := ih cur h
      exact ⟨c :: p, by rw [List.cons_append, ← hp]⟩

theorem trailingMatch_matches (e : List Char) : ∀ (cur : List Char),
    trailingMatch e = some cur → matchesNumSeg cur = true := by
  induction e with
  | nil => intro cur h; simp [trailingMatch] at h
  | cons c rest ih =>
    intro cur h
    rw [trailingMatch] at h
    split at h
    · rwa [← Option.some.inj h]
    · exact ih cur h

/-!  Sign analysis of the formatted strings and of `parseFloat`.  -/

theorem scaledToDecString_head_op (e : Nat) (k : ℤ) (c : Char)
    (hh : (scaledToDecString e k).head? = some c) (hop : isOpChar c = true) :
    k < 0 := by
  by_contra hk
  rw [scaled_decomp, if_neg hk, List.nil_append] at hh
  cases hnd : natToDec (k.natAbs / 10 ^ e) with
  | nil => exact absurd hnd (natToDec_ne_nil _)
  | cons d ds =>
    rw [hnd, List.cons_append, List.head?_cons] at hh
    have hcd : c = d := (Option.some.inj hh).symm
    subst hcd
    have hd : c.isDigit = true :=
      natToDec_digits _ c (by rw [hnd]; exact List.mem_cons_self c ds)
    rw [isOpChar_false_of_isDigit c hd] at hop
    exact absurd hop Bool.false_ne_true

theorem ratToDecString_neg_of_head_op (q : ℚ) (c : Char)
    (hh : (ratToDecString q).head? = some c) (hop : isOpChar c = true) :
    q < 0 := by
  rw [ratToDecString] at hh
  have hk := scaledToDecString_head_op _ _ c hh hop
  rw [qMul_eq_mul] at hk
  have hkv : q * mkRat ((10 : ℤ) ^ tenExp q.den) 1 < 0 := by
    by_contra hge
    rw [not_lt] at hge
    have := Rat.num_nonneg.mpr hge
    omega
  rw [Rat.mkRat_one] at hkv
  by_contra hq
  rw [not_lt] at hq
  have h10 : (0 : ℚ) ≤ ((10 : ℤ) ^ tenExp q.den : ℤ) := by positivity
  exact absurd (mul_nonneg hq h10) (not_le.mpr hkv)

theorem mkRat_nonneg_of_nonneg (k : ℤ) (d : Nat) (hk : 0 ≤ k) : 0 ≤ mkRat k d := by
  rw [← Rat.divInt_ofNat, Rat.divInt_eq_div]
  apply div_nonneg
  · exact_mod_cast hk
  · positivity

theorem parse_shape_nonneg (C : Prop) [Decidable C] (x y n : Nat) (v : ℚ)
    (hv : (if C then none
           else some (mkRat ((x : ℤ) * 10 ^ n + (y : ℤ)) (10 ^ n))) = some v) :
    0 ≤ v := by
  split at hv
  · exact absurd hv (by simp)
  · rw [← Option.some.inj hv]
    exact mkRat_nonneg_of_nonneg _ _ (by positivity)

theorem optGetD_nonneg (o : Option ℚ) (h : ∀ v, o = some v → 0 ≤ v) :
    0 ≤ o.getD 0 := by
  cases o with
  | none => exact le_refl (0 : ℚ)
  | some v => exact h v rfl

theorem parseFloatQ_nonneg (s : List Char) (hs : s.head? ≠ some '-') :
    0 ≤ (parseFloatQ s).getD 0 := by
  have hb : (s.head? == some '-') = false := by
    rw [beq_eq_false_iff_ne]; exact hs
  apply optGetD_nonneg
  intro v hv
  rw [parseFloatQ] at hv
  simp only [hb, Bool.false_eq_true, if_false] at hv
  exact parse_shape_nonneg _ _ _ _ v hv

theorem qDiv_neg_imp (v : ℚ) (h : qDiv v 100 < 0) : v < 0 := by
  rw [qDiv_eq_div] at h
  by_contra hv
  rw [not_lt] at hv
  have : (0 : ℚ) ≤ v / 100 := div_nonneg hv (by norm_num)
  linarith

/-!  Preservation of the no-adjacent-operators property by each buffer
operation other than `sign`.  -/

theorem noAdjOps_ratToDecString (q : ℚ) : noAdjOps (ratToDecString q) = true := by
  rw [ratToDecString]; exact noAdjOps_scaledToDecString _ _

theorem noAdjOps_toResultString (r : Option ℚ) :
    noAdjOps (toResultString r) = true := by
  cases r with
  | none => decide
  | some v => exact noAdjOps_scaledToDecString _ _

theorem noAdjOps_append_nonops (l t : List Char) (h : noAdjOps l = true)
    (ht : ∀ c ∈ t, isOpChar c = false) : noAdjOps (l ++ t) = true := by
  rw [noAdjOps_append_iff]
  refine ⟨h, noAdjOps_of_all_nonop t ht, ?_⟩
  cases hh : t.head? with
  | none => exact pairOk_none_right _
  | some c =>
    have : c ∈ t := by
      cases t with
      | nil => simp at hh
      | cons a t2 => rw [List.head?_cons] at hh; rw [← Option.some.inj hh]
                     exact List.mem_cons_self a t2
    exact pairOk_right_nonop _ c (ht c this)

theorem noAdjOps_replaceLast (e : List Char) (c : Char)
    (h : noAdjOps e = true) (hend : endsInOp e = true) :
    noAdjOps (e.dropLast ++ [c]) = true := by
  cases hl : e.getLast? with
  | none => rw [endsInOp, hl] at hend; exact absurd hend (by decide)
  | some x =>
    have hx : isOpChar x = true := by rwa [endsInOp, hl] at hend
    have hdecomp := List.dropLast_append_getLast? x hl
    rw [← hdecomp] at h
    rw [noAdjOps_append_iff] at h
    obtain ⟨hd, _, hpair⟩ := h
    exact noAdjOps_append_single _ c hd (pairOk_swap_right _ x c hpair hx)

theorem noAdjOps_normalizeInput (e : List Char) (c : Char)
    (h : noAdjOps e = true) : noAdjOps (normalizeInput e c) = true := by
  rw [normalizeInput]
  by_cases hd : c.isDigit = true
  · rw [if_pos hd]
    exact noAdjOps_append_nonops e [c] h
      (by intro x hx; rw [List.mem_singleton] at hx; rw [hx]
          exact isOpChar_false_of_isDigit c hd)
  · rw [if_neg hd]
    by_cases hdot : (c == '.') = true
    · rw [if_pos hdot]
      by_cases hmem : '.' ∈ lastSegment e
      · rw [if_pos hmem]; exact h
      · rw [if_neg hmem]
        by_cases hseg : lastSegment e = []
        · rw [if_pos hseg]
          exact noAdjOps_append_nonops e ['0', '.'] h
            (by intro x hx
                rcases List.mem_cons.mp hx with rfl | hx2
                · decide
                · rw [List.mem_singleton] at hx2; rw [hx2]; decide)
        · rw [if_neg hseg]
          exact noAdjOps_append_nonops e ['.'] h
            (by intro x hx; rw [List.mem_singleton] at hx; rw [hx]; decide)
    · rw [if_neg hdot]
      by_cases hop : isOpChar c = true
      · rw [if_pos hop]
        by_cases he : e = []
        · rw [if_pos he]
          split
          · rfl
          · rfl
        · rw [if_neg he]
          by_cases hend : endsInOp e = true
          · rw [if_pos hend]
            exact noAdjOps_replaceLast e c h hend
          · rw [if_neg hend]
            apply noAdjOps_append_single e c h
            cases hl : e.getLast? with
            | none => rfl
            | some a =>
              have ha : isOpChar a = false := by
                rw [Bool.not_eq_true] at hend
                rwa [endsInOp, hl] at hend
              exact pairOk_left_nonop a _ ha
      · rw [if_neg hop]; exact h

theorem noAdjOps_applyPercent (e : List Char) (h : noAdjOps e = true) :
    noAdjOps (applyPercent e) = true := by
  rw [applyPercent]
  split
  · exact h
  · cases htm : trailingMatch e with
    | none => simp only [htm]; exact h
    | some cur =>
      simp only [htm]
      obtain ⟨p, hp⟩ := trailingMatch_suffix e cur htm
      subst hp
      have htake : (p ++ cur).take ((p ++ cur).length - cur.length) = p := by
        rw [List.length_append, Nat.add_sub_cancel]
        exact List.take_left p cur
      rw [htake]
      rw [noAdjOps_append_iff] at h
      obtain ⟨hpOk, _, hpair⟩ := h
      rw [noAdjOps_append_iff]
      refine ⟨hpOk, noAdjOps_ratToDecString _, ?_⟩
      cases hr : (ratToDecString (qDiv ((parseFloatQ cur).getD 0) 100)).head? with
      | none => exact pairOk_none_right _
      | some c =>
        by_cases hop : isOpChar c = true
        · have hqneg := ratToDecString_neg_of_head_op _ c hr hop
          have hv : ((parseFloatQ cur).getD 0) < 0 := qDiv_neg_imp _ hqneg
          have hhead : cur.head? = some '-' := by
            by_contra hch
            exact absurd (parseFloatQ_nonneg cur hch) (not_le.mpr hv)
          rw [hhead] at hpair
          exact pairOk_swap_right _ '-' c hpair (by decide)
        · have hopf : isOpChar c = false := by
            cases hcc : isOpChar c with
            | false => rfl
            | true => exact absurd hcc hop
          exact pairOk_right_nonop _ c hopf

theorem noAdjOps_handleEquals (s : CalcState) (h : noAdjOps s.expression = true) :
    noAdjOps (handleEquals s).expression = true := by
  rw [handleEquals]
  split
  · exact h
  · dsimp only
    split
    · exact noAdjOps_toResultString _
    · rfl

theorem noAdjOps_step (s : CalcState) (i : Input) (hi : i ≠ Input.sign)
    (h : noAdjOps s.expression = true) :
    noAdjOps (step s i).expression = true := by
  cases i with
  | ich c => exact noAdjOps_normalizeInput s.expression c h
  | clear => rfl
  | del => exact noAdjOps_dropLast s.expression h
  | percent => exact noAdjOps_applyPercent s.expression h
  | sign => exact absurd rfl hi
  | equals => exact noAdjOps_handleEquals s h

theorem noAdjOps_run_aux (is : List Input) : ∀ (s : CalcState),
    Input.sign ∉ is → noAdjOps s.expression = true →
    noAdjOps ((is.foldl step s).expression) = true := by
  induction is with
  | nil => intro s _ h; exact h
  | cons i is ih =>
    intro s hmem h
    rw [List.foldl_cons]
    refine ih (step s i) (fun hc => hmem (List.mem_cons_of_mem i hc)) ?_
    exact noAdjOps_step s i (fun hc => hmem (hc ▸ List.mem_cons_self i is)) h

/-- C2 (counterexample): the state reached by the inputs `5`, `+`, `3`,
`sign` has buffer `5+-3`, which contains the adjacent operator characters
`+` and `-`. -/
theorem adjacent_ops_reachable_with_sign :
    (run [Input.ich '5', Input.ich '+', Input.ich '3', Input.sign]).expression
      = ['5', '+', '-', '3']
    ∧ noAdjOps (run [Input.ich '5', Input.ich '+', Input.ich '3',
        Input.sign]).expression = false := by
  constructor
  · decide
  · decide

/-- C2 (amended): for every state reachable from the empty buffer by
character inputs and the commands `clear`, `delete`, `percent`, `equals` —
that is, excluding `sign` — the buffer never contains two consecutive
operator characters.  (The `sign` command can break the invariant, e.g.
buffer `5+3` becomes `5+-3`.) -/
theorem buffer_no_adjacent_ops_without_sign (is : List Input)
    (h : Input.sign ∉ is) : noAdjOps (run is).expression = true :=
  noAdjOps_run_aux is initState h rfl

theorem buffer_no_adjacent_ops_without_sign_witness :
    noAdjOps (run [Input.ich '5', Input.ich '+', Input.ich '3', Input.del,
      Input.ich '4', Input.percent, Input.equals]).expression = true :=
  buffer_no_adjacent_ops_without_sign _ (by decide)

/-!  The `sign` command: when a double application restores the buffer.  -/

theorem someBeq_char (c d : Char) : ((some c : Option Char) == some d) = (c == d) := rfl

theorem digitsDotDigits_cons_eq (l : List Char) (d : Char) (r2 : List Char)
    (hdw : l.dropWhile Char.isDigit = d :: r2) :
    digitsDotDigits l = (d == '.' && !r2.isEmpty && r2.all Char.isDigit) := by
  rw [digitsDotDigits, hdw]

theorem digitsDotDigits_all (l : List Char) (h : digitsDotDigits l = true) :
    ∀ c ∈ l, isDigitOrDot c = true := by
  intro c hc
  rw [← @List.takeWhile_append_dropWhile _ Char.isDigit l] at hc
  rcases List.mem_append.mp hc with h2 | h2
  · have hdig := List.mem_takeWhile_imp h2
    simp [isDigitOrDot, hdig]
  · cases hdw : l.dropWhile Char.isDigit with
    | nil => rw [hdw] at h2; exact absurd h2 (List.not_mem_nil c)
    | cons d r2 =>
      rw [hdw] at h2
      rw [digitsDotDigits_cons_eq l d r2 hdw] at h
      rw [Bool.and_eq_true, Bool.and_eq_true] at h
      obtain ⟨⟨hd, _⟩, hall⟩ := h
      have hdEq : d = '.' := by simpa using hd
      rcases List.mem_cons.mp h2 with rfl | h3
      · simp [isDigitOrDot, hdEq]
      · simp only [List.all_eq_true] at hall
        simp [isDigitOrDot, hall c h3]

theorem ddd_false_of_dash (l : List Char) (hd : '-' ∈ l) :
    digitsDotDigits l = false := by
  cases hcc : digitsDotDigits l with
  | false => rfl
  | true => exact absurd (digitsDotDigits_all l hcc '-' hd) (by decide)

theorem matchesNumSeg_dash_inside (q cur : List Char) (hq : q ≠ []) :
    matchesNumSeg (q ++ '-' :: cur) = false := by
  cases q with
  | nil => exact absurd rfl hq
  | cons c q2 =>
    rw [List.cons_append, matchesNumSeg]
    have hmem : '-' ∈ q2 ++ '-' :: cur :=
      List.mem_append_right q2 (List.mem_cons_self '-' cur)
    split
    · exact ddd_false_of_dash _ hmem
    · exact ddd_false_of_dash _ (List.mem_cons_of_mem c hmem)

theorem trailingMatch_dash (cur : List Char) (h : digitsDotDigits cur = true) :
    ∀ (p : List Char), trailingMatch (p ++ '-' :: cur) = some ('-' :: cur) := by
  intro p
  induction p with
  | nil =>
    rw [List.nil_append, trailingMatch, if_pos]
    show matchesNumSeg ('-' :: cur) = true
    rw [show matchesNumSeg ('-' :: cur) = digitsDotDigits cur from rfl]
    exact h
  | cons c p2 ih =>
    rw [List.cons_append, trailingMatch, if_neg]
    · exact ih
    · rw [show c :: (p2 ++ '-' :: cur) = (c :: p2) ++ '-' :: cur from rfl]
      rw [matchesNumSeg_dash_inside (c :: p2) cur (by simp)]
      simp

theorem trailingMatch_none_no_suffix (l : List Char) (h : trailingMatch l = none) :
    ∀ (m : List Char), m <:+ l → m ≠ [] → matchesNumSeg m = false := by
  induction l with
  | nil =>
    intro m hm hne
    exact absurd (List.suffix_nil.mp hm) hne
  | cons c rest ih =>
    intro m hm hne
    rw [trailingMatch] at h
    split at h
    · exact absurd h (by simp)
    · rcases List.suffix_cons_iff.mp hm with rfl | hm2
      · cases hcc : matchesNumSeg (c :: rest) with
        | false => rfl
        | true => simp_all
      · exact ih h m hm2 hne

theorem trailingMatch_none_of_no_suffix (l : List Char)
    (h : ∀ (m : List Char), m <:+ l → m ≠ [] → matchesNumSeg m = false) :
    trailingMatch l = none := by
  induction l with
  | nil => rfl
  | cons c rest ih =>
    rw [trailingMatch, if_neg]
    · exact ih (fun m hm hne => h m (hm.trans (List.suffix_cons c rest)) hne)
    · rw [h (c :: rest) (List.suffix_refl _) (by simp)]
      simp

theorem matchesNumSeg_no_dash (cur : List Char) (hm : matchesNumSeg cur = true)
    (hb : (cur.head? == some '-') = false) : digitsDotDigits cur = true := by
  cases cur with
  | nil => exact absurd hm (by decide)
  | cons c r =>
    have hcb : (c == '-') = false := by
      rw [List.head?_cons, someBeq_char] at hb
      exact hb
    rwa [matchesNumSeg, if_neg (by simp [hcb])] at hm

theorem applySign_some (e cur : List Char) (htm : trailingMatch e = some cur) :
    applySign e = e.take (e.length - cur.length) ++
      (if cur.head? == some '-' then cur.drop 1 else '-' :: cur) := by
  rw [applySign, htm]

theorem applySign_none (e : List Char) (htm : trailingMatch e = none) :
    applySign e = (if e.head? == some '-' then e.drop 1 else '-' :: e) := by
  rw [applySign, htm]

theorem signSafe_some (e cur : List Char) (htm : trailingMatch e = some cur) :
    signSafe e = !(cur.head? == some '-') := by
  rw [signSafe, htm]

theorem signSafe_none (e : List Char) (htm : trailingMatch e = none) :
    signSafe e = !((e.head? == some '-') && ((e.drop 1).head? == some '-')) := by
  rw [signSafe, htm]

/-- C9 (amended): the `sign` command applied twice restores the buffer on
every buffer where the first application adds a sign: when the trailing
numeric segment matches and does not already start with `-`, and when no
segment matches and the buffer does not begin with two `-` characters.
Outside this set restoration is not guaranteed: it can fail, as on `5-3`
(whose matched segment `-3` absorbed a binary minus; see the
counterexample), though it may also succeed, as on `-3`. -/
theorem sign_twice_restores_on_safe (e : List Char) (h : signSafe e = true) :
    applySign (applySign e) = e := by
  cases htm : trailingMatch e with
  | some cur =>
    rw [signSafe_some e cur htm] at h
    have h2 : (cur.head? == some '-') = false := by simpa using h
    have hmm := trailingMatch_matches e cur htm
    have hddd : digitsDotDigits cur = true := matchesNumSeg_no_dash cur hmm h2
    obtain ⟨p, hp⟩ := trailingMatch_suffix e cur htm
    subst hp
    have htake : (p ++ cur).take ((p ++ cur).length - cur.length) = p := by
      rw [List.length_append, Nat.add_sub_cancel]
      exact List.take_left p cur
    have hs1 : applySign (p ++ cur) = p ++ '-' :: cur := by
      rw [applySign_some _ cur htm, if_neg (by simp [h2]), htake]
    rw [hs1]
    have htm2 : trailingMatch (p ++ '-' :: cur) = some ('-' :: cur) :=
      trailingMatch_dash cur hddd p
    rw [applySign_some _ _ htm2, if_pos (by rfl)]
    have htake2 : (p ++ '-' :: cur).take
        ((p ++ '-' :: cur).length - ('-' :: cur).length) = p := by
      rw [List.length_append, Nat.add_sub_cancel]
      exact List.take_left p ('-' :: cur)
    rw [htake2]
    rfl
  | none =>
    rw [signSafe_none e htm] at h
    by_cases hh : (e.head? == some '-') = true
    · cases e with
      | nil => exact absurd hh (by decide)
      | cons c r =>
        have hc : c = '-' := by
          rw [List.head?_cons, someBeq_char] at hh
          simpa using hh
        subst hc
        have hr : (r.head? == some '-') = false := by
          cases hx : (r.head? == some '-') with
          | false => rfl
          | true =>
            rw [hh] at h
            have hx2 : ((('-' :: r).drop 1).head? == some '-') = true := hx
            rw [hx2] at h
            exact absurd h (by decide)
        have hs1 : applySign ('-' :: r) = r := by
          rw [applySign_none _ htm, if_pos (by rfl)]
          rfl
        rw [hs1]
        have htmr : trailingMatch r = none :=
          trailingMatch_none_of_no_suffix r
            (fun m hm hne =>
              trailingMatch_none_no_suffix _ htm m (hm.trans (List.suffix_cons '-' r)) hne)
        rw [applySign_none _ htmr, if_neg (by simp [hr])]
    · have hbe : (e.head? == some '-') = false := by
        cases hx : (e.head? == some '-') with
        | false => rfl
        | true => exact absurd hx hh
      have hs1 : applySign e = '-' :: e := by
        rw [applySign_none _ htm, if_neg (by simp [hbe])]
      rw [hs1]
      have htm1 : trailingMatch ('-' :: e) = none := by
        apply trailingMatch_none_of_no_suffix
        intro m hm hne
        rcases List.suffix_cons_iff.mp hm with rfl | hm2
        · rw [show matchesNumSeg ('-' :: e) = digitsDotDigits e from rfl]
          cases e with
          | nil => decide
          | cons a r2 =>
            have hma : matchesNumSeg (a :: r2) = false :=
              trailingMatch_none_no_suffix _ htm (a :: r2) (List.suffix_refl _) (by simp)
            have hane : (a == '-') = false := by
              rw [List.head?_cons, someBeq_char] at hbe
              exact hbe
            rwa [matchesNumSeg, if_neg (by simp [hane])] at hma
        · exact trailingMatch_none_no_suffix _ htm m hm2 hne
      rw [applySign_none _ htm1, if_pos (by rfl)]
      rfl

/-- C9 (counterexample): `sign` is not an involution on every buffer: on
`5-3` the segment `-3` is matched and stripped to `3`, giving `53`, and a
second `sign` gives `-53`, not `5-3`. -/
theorem sign_not_involution :
    applySign ['5', '-', '3'] = ['5', '3']
    ∧ applySign (applySign ['5', '-', '3']) = ['-', '5', '3']
    ∧ applySign (applySign ['5', '-', '3']) ≠ ['5', '-', '3'] := by
  refine ⟨by decide, by decide, by decide⟩

theorem sign_twice_restores_on_safe_witness :
    signSafe ['5', '3'] = true
    ∧ applySign (applySign ['5', '3']) = ['5', '3'] :=
  ⟨by decide, sign_twice_restores_on_safe ['5', '3'] (by decide)⟩
